import Mathlib

/-!
Verification of the blazar lease manager (`blazar/manager/service.py`) against
its natural-language specification.

The Python code is shallowly embedded: dictionaries holding event, lease and
reservation rows become Lean structures; timestamps become `Int` (seconds since
the epoch; the `%Y-%m-%d %H:%M` date format of the source has minute
granularity, and truncation to the minute is `t - t % 60`); functions that may
raise become `Except`/`Option`-valued functions; database writes and
notifications become an explicit list of `ManagerEffect` values.  External
collaborators that the repository does not contain (the database API, the
status module, the resource plugins, enforcement) are modelled as explicit
parameters or, where the specification pins down their behaviour, as
definitions marked `Modelled from the spec`.
-/

set_option maxHeartbeats 1000000
set_option linter.unusedVariables false

/-- Row of the event table: `{id, lease_id, event_type, time, status}`.
The source handles events as dictionaries; Python `==` on such dictionaries is
field-wise equality, which matches the derived `DecidableEq`. -/
structure Event where
  id : Nat
  lease_id : Nat
  event_type : String
  time : Int
  status : String
deriving DecidableEq, Repr, Inhabited

/-- Test whether the event type equals `before_end_lease`. -/
def isBeforeEnd (e : Event) : Bool := e.event_type == "before_end_lease"

/-- Test whether the event type equals `end_lease`. -/
def isEndType (e : Event) : Bool := e.event_type == "end_lease"

/-- Test whether the event type equals `start_lease`. -/
def isStartType (e : Event) : Bool := e.event_type == "start_lease"

/-- The `first_events` list of `_select_for_execution`: all events whose time
equals the time of the first event, `events[0].time`. -/
def firstEventsOf (events : List Event) : List Event :=
  events.filter (fun e => e.time == events.headI.time)

/-- The defaultdict `events_by_lease` of `_select_for_execution`: appending in
iteration order over `first_events` yields exactly the order-preserving
filter of `first_events` by lease id. -/
def eventsByLease (firstEvents : List Event) (lid : Nat) : List Event :=
  firstEvents.filter (fun e => e.lease_id == lid)

/-- The defaultdict `events_by_type` of `_select_for_execution`, as the
order-preserving filter of `first_events` by event type. -/
def eventsByType (firstEvents : List Event) (t : String) : List Event :=
  firstEvents.filter (fun e => e.event_type == t)

/-- The mutable state of the deferral loop in `_select_for_execution`:
the `events_by_type` entries for `before_end_lease` and `end_lease`,
`deferred_before_end_events` and `deferred_end_events`. -/
structure DeferState where
  beforeEndEvents : List Event
  endEvents : List Event
  deferredBeforeEnd : List Event
  deferredEnd : List Event
deriving DecidableEq, Repr

/-- Body of the inner loop of `_select_for_execution`: for a sibling event `e`
of a start event, move `e` from its priority list to the matching deferred
list.  Python `list.remove` removes the first occurrence and raises if the
element is absent; `List.erase` is identical on lists without duplicates in
which the element occurs, which the well-formedness hypotheses of the theorems
below guarantee. -/
def deferStep (st : DeferState) (e : Event) : DeferState :=
  if isBeforeEnd e then
    { st with beforeEndEvents := st.beforeEndEvents.erase e,
              deferredBeforeEnd := st.deferredBeforeEnd ++ [e] }
  else if isEndType e then
    { st with endEvents := st.endEvents.erase e,
              deferredEnd := st.deferredEnd ++ [e] }
  else st

/-- One iteration of the outer deferral loop of `_select_for_execution`:
process every first event of the lease of the start event `s`. -/
def deferForStart (firstEvents : List Event) (st : DeferState) (s : Event) :
    DeferState :=
  (eventsByLease firstEvents s.lease_id).foldl deferStep st

/-- Shallow embedding of `ManagerService._select_for_execution`
(`blazar/manager/service.py`).  Returns the six batches
`[before_end_lease, end_lease, start_lease, deferred before_end, deferred end,
later events]`.  The `later_events` comprehension tests membership in
`first_events` with Python `==`, i.e. structural equality. -/
def select_for_execution (events : List Event) : List (List Event) :=
  if events.isEmpty then []
  else
    let firstEvents := firstEventsOf events
    let st0 : DeferState :=
      { beforeEndEvents := eventsByType firstEvents "before_end_lease",
        endEvents := eventsByType firstEvents "end_lease",
        deferredBeforeEnd := [], deferredEnd := [] }
    let st := (eventsByType firstEvents "start_lease").foldl
        (deferForStart firstEvents) st0
    let laterEvents := events.filter (fun e => !(firstEvents.contains e))
    [st.beforeEndEvents, st.endEvents, eventsByType firstEvents "start_lease",
     st.deferredBeforeEnd, st.deferredEnd, laterEvents]

/-- Predicate used by the specification of batch selection: the lease `lid`
has a `start_lease` event among the first events. -/
def hasStartSibling (firstEvents : List Event) (lid : Nat) : Bool :=
  firstEvents.any (fun s => isStartType s && s.lease_id == lid)

/-- Predicate used while unrolling the deferral loop: some start event in `ss`
belongs to lease `lid`. -/
def leaseHasStartIn (ss : List Event) (lid : Nat) : Bool :=
  ss.any (fun s => s.lease_id == lid)

example :
    select_for_execution
      [⟨1, 1, "end_lease", 0, "UNDONE"⟩, ⟨2, 2, "start_lease", 0, "UNDONE"⟩,
       ⟨3, 2, "before_end_lease", 0, "UNDONE"⟩, ⟨4, 3, "start_lease", 5, "UNDONE"⟩] =
      [[], [⟨1, 1, "end_lease", 0, "UNDONE"⟩], [⟨2, 2, "start_lease", 0, "UNDONE"⟩],
       [⟨3, 2, "before_end_lease", 0, "UNDONE"⟩], [], [⟨4, 3, "start_lease", 5, "UNDONE"⟩]] := by
  decide

theorem foldl_deferStep_eq (sibs : List Event) : ∀ (st : DeferState),
    st.beforeEndEvents.Nodup → st.endEvents.Nodup →
    sibs.foldl deferStep st =
      { beforeEndEvents :=
          st.beforeEndEvents.filter (fun x => !(sibs.contains x && isBeforeEnd x)),
        endEvents :=
          st.endEvents.filter (fun x => !(sibs.contains x && isEndType x)),
        deferredBeforeEnd := st.deferredBeforeEnd ++ sibs.filter isBeforeEnd,
        deferredEnd := st.deferredEnd ++ sibs.filter isEndType } := by
  induction sibs with
  | nil =>
    intro st _ _
    simp [List.foldl]
  | cons e rest ih =>
    intro st hbe hend
    rw [List.foldl_cons]
    by_cases h1 : isBeforeEnd e
    · have hstep : deferStep st e =
          { st with beforeEndEvents := st.beforeEndEvents.erase e,
                    deferredBeforeEnd := st.deferredBeforeEnd ++ [e] } := by
        simp [deferStep, h1]
      rw [hstep, ih ⟨st.beforeEndEvents.erase e, st.endEvents,
            st.deferredBeforeEnd ++ [e], st.deferredEnd⟩ (hbe.erase e) hend]
      have hbe2 : ¬ isEndType e := by
        simp only [isBeforeEnd, beq_iff_eq] at h1
        simp [isEndType, h1]
      refine DeferState.mk.injEq .. ▸ ⟨?_, ?_, ?_, ?_⟩ <;> simp only
      · rw [hbe.erase_eq_filter, List.filter_filter]
        refine List.filter_congr fun x _ => ?_
        by_cases hxe : x = e
        · subst hxe; simp [h1]
        · have : (x == e) = false := by simp [hxe]
          simp [List.contains_cons, this, hxe]
      · refine List.filter_congr fun x _ => ?_
        by_cases hxe : x = e
        · subst hxe; simp [List.contains_cons, hbe2]
        · have : (x == e) = false := by simp [hxe]
          simp [List.contains_cons, this, hxe]
      · simp [List.filter_cons, h1]
      · have : ¬ isEndType e := hbe2
        simp [List.filter_cons, this]
    · by_cases h2 : isEndType e
      · have hstep : deferStep st e =
            { st with endEvents := st.endEvents.erase e,
                      deferredEnd := st.deferredEnd ++ [e] } := by
          simp [deferStep, h1, h2]
        rw [hstep, ih ⟨st.beforeEndEvents, st.endEvents.erase e, st.deferredBeforeEnd, st.deferredEnd ++ [e]⟩ hbe (hend.erase e)]
        refine DeferState.mk.injEq .. ▸ ⟨?_, ?_, ?_, ?_⟩ <;> simp only
        · refine List.filter_congr fun x _ => ?_
          by_cases hxe : x = e
          · subst hxe; simp [List.contains_cons, h1]
          · have : (x == e) = false := by simp [hxe]
            simp [List.contains_cons, this, hxe]
        · rw [hend.erase_eq_filter, List.filter_filter]
          refine List.filter_congr fun x _ => ?_
          by_cases hxe : x = e
          · subst hxe; simp [h2]
          · have : (x == e) = false := by simp [hxe]
            simp [List.contains_cons, this, hxe]
        · simp [List.filter_cons, h1]
        · simp [List.filter_cons, h2]
      · have hstep : deferStep st e = st := by
          simp [deferStep, h1, h2]
        rw [hstep, ih st hbe hend]
        refine DeferState.mk.injEq .. ▸ ⟨?_, ?_, ?_, ?_⟩
        · refine List.filter_congr fun x _ => ?_
          by_cases hxe : x = e
          · subst hxe; simp [List.contains_cons, h1]
          · have : (x == e) = false := by simp [hxe]
            simp [List.contains_cons, this, hxe]
        · refine List.filter_congr fun x _ => ?_
          by_cases hxe : x = e
          · subst hxe; simp [List.contains_cons, h2]
          · have : (x == e) = false := by simp [hxe]
            simp [List.contains_cons, this, hxe]
        · simp [List.filter_cons, h1]
        · simp [List.filter_cons, h2]

theorem foldl_deferForStart_eq (fe : List Event) (hfe : fe.Nodup)
    (ss : List Event) : ∀ (q : Nat → Bool) (D E : List Event),
    List.foldl (deferForStart fe)
      { beforeEndEvents :=
          (eventsByType fe "before_end_lease").filter (fun x => q x.lease_id),
        endEvents :=
          (eventsByType fe "end_lease").filter (fun x => q x.lease_id),
        deferredBeforeEnd := D, deferredEnd := E } ss =
      { beforeEndEvents := (eventsByType fe "before_end_lease").filter
          (fun x => q x.lease_id && !(leaseHasStartIn ss x.lease_id)),
        endEvents := (eventsByType fe "end_lease").filter
          (fun x => q x.lease_id && !(leaseHasStartIn ss x.lease_id)),
        deferredBeforeEnd := D ++ ss.flatMap
          (fun s => (eventsByLease fe s.lease_id).filter isBeforeEnd),
        deferredEnd := E ++ ss.flatMap
          (fun s => (eventsByLease fe s.lease_id).filter isEndType) } := by
  induction ss with
  | nil =>
    intro q D E
    simp [leaseHasStartIn]
  | cons s ss ih =>
    intro q D E
    rw [List.foldl_cons]
    have hndq : ∀ t, ((eventsByType fe t).filter (fun x => q x.lease_id)).Nodup :=
      fun t => (hfe.filter _).filter _
    have hunfold : deferForStart fe
        { beforeEndEvents :=
            (eventsByType fe "before_end_lease").filter (fun x => q x.lease_id),
          endEvents :=
            (eventsByType fe "end_lease").filter (fun x => q x.lease_id),
          deferredBeforeEnd := D, deferredEnd := E } s =
        { beforeEndEvents := (eventsByType fe "before_end_lease").filter
            (fun x => q x.lease_id && !(x.lease_id == s.lease_id)),
          endEvents := (eventsByType fe "end_lease").filter
            (fun x => q x.lease_id && !(x.lease_id == s.lease_id)),
          deferredBeforeEnd :=
            D ++ (eventsByLease fe s.lease_id).filter isBeforeEnd,
          deferredEnd :=
            E ++ (eventsByLease fe s.lease_id).filter isEndType } := by
      rw [deferForStart,
        foldl_deferStep_eq _ _ (hndq "before_end_lease") (hndq "end_lease")]
      refine DeferState.mk.injEq .. ▸ ⟨?_, ?_, rfl, rfl⟩ <;> simp only
      · rw [List.filter_filter]
        refine List.filter_congr fun x hx => ?_
        have hxfe : x ∈ fe ∧ (x.event_type == "before_end_lease") = true := by
          simpa [eventsByType, List.mem_filter] using hx
        have hbe : isBeforeEnd x = true := by
          simpa [isBeforeEnd] using hxfe.2
        have hcont : (eventsByLease fe s.lease_id).contains x =
            (x.lease_id == s.lease_id) := by
          by_cases hl : x.lease_id = s.lease_id
          · have hmem : x ∈ eventsByLease fe s.lease_id := by
              simp [eventsByLease, List.mem_filter, hxfe.1, hl]
            simp [List.elem_iff, hmem, hl]
          · have hmem : x ∉ eventsByLease fe s.lease_id := by
              simp [eventsByLease, List.mem_filter, hl]
            simp [List.elem_iff, hmem, hl]
        rw [hcont, hbe]
        cases q x.lease_id <;> cases (x.lease_id == s.lease_id) <;> rfl
      · rw [List.filter_filter]
        refine List.filter_congr fun x hx => ?_
        have hxfe : x ∈ fe ∧ (x.event_type == "end_lease") = true := by
          simpa [eventsByType, List.mem_filter] using hx
        have hend : isEndType x = true := by
          simpa [isEndType] using hxfe.2
        have hcont : (eventsByLease fe s.lease_id).contains x =
            (x.lease_id == s.lease_id) := by
          by_cases hl : x.lease_id = s.lease_id
          · have hmem : x ∈ eventsByLease fe s.lease_id := by
              simp [eventsByLease, List.mem_filter, hxfe.1, hl]
            simp [List.elem_iff, hmem, hl]
          · have hmem : x ∉ eventsByLease fe s.lease_id := by
              simp [eventsByLease, List.mem_filter, hl]
            simp [List.elem_iff, hmem, hl]
        rw [hcont, hend]
        cases q x.lease_id <;> cases (x.lease_id == s.lease_id) <;> rfl
    rw [hunfold, ih (fun lid => q lid && !(lid == s.lease_id))]
    refine DeferState.mk.injEq .. ▸ ⟨?_, ?_, ?_, ?_⟩
    · refine List.filter_congr fun x _ => ?_
      by_cases hl : x.lease_id = s.lease_id
      · simp [leaseHasStartIn, hl]
      · have h1 : (x.lease_id == s.lease_id) = false := by simp [hl]
        have h2 : (s.lease_id == x.lease_id) = false := by
          have hsx : s.lease_id ≠ x.lease_id := fun h => hl h.symm
          simp [hsx]
        simp only [leaseHasStartIn, List.any_cons, h1, h2]
        cases q x.lease_id <;> cases ss.any (fun s => s.lease_id == x.lease_id) <;> rfl
    · refine List.filter_congr fun x _ => ?_
      by_cases hl : x.lease_id = s.lease_id
      · simp [leaseHasStartIn, hl]
      · have h1 : (x.lease_id == s.lease_id) = false := by simp [hl]
        have h2 : (s.lease_id == x.lease_id) = false := by
          have hsx : s.lease_id ≠ x.lease_id := fun h => hl h.symm
          simp [hsx]
        simp only [leaseHasStartIn, List.any_cons, h1, h2]
        cases q x.lease_id <;> cases ss.any (fun s => s.lease_id == x.lease_id) <;> rfl
    · simp [List.append_assoc]
    · simp [List.append_assoc]

theorem foldl_deferForStart_init (fe : List Event) (hfe : fe.Nodup)
    (ss : List Event) :
    List.foldl (deferForStart fe)
      { beforeEndEvents := eventsByType fe "before_end_lease",
        endEvents := eventsByType fe "end_lease",
        deferredBeforeEnd := [], deferredEnd := [] } ss =
      { beforeEndEvents := (eventsByType fe "before_end_lease").filter
          (fun x => !(leaseHasStartIn ss x.lease_id)),
        endEvents := (eventsByType fe "end_lease").filter
          (fun x => !(leaseHasStartIn ss x.lease_id)),
        deferredBeforeEnd := ss.flatMap
          (fun s => (eventsByLease fe s.lease_id).filter isBeforeEnd),
        deferredEnd := ss.flatMap
          (fun s => (eventsByLease fe s.lease_id).filter isEndType) } := by
  have h := foldl_deferForStart_eq fe hfe ss (fun _ => true) [] []
  simpa using h

/-- Closed form of `_select_for_execution` on a non-empty duplicate-free event
list: the six batches, with the two deferred batches given by the iteration
order of the deferral loop. -/
theorem select_for_execution_eq (events : List Event) (hne : events ≠ [])
    (hnd : events.Nodup) :
    select_for_execution events =
      [(eventsByType (firstEventsOf events) "before_end_lease").filter
          (fun x => !(leaseHasStartIn
            (eventsByType (firstEventsOf events) "start_lease") x.lease_id)),
       (eventsByType (firstEventsOf events) "end_lease").filter
          (fun x => !(leaseHasStartIn
            (eventsByType (firstEventsOf events) "start_lease") x.lease_id)),
       eventsByType (firstEventsOf events) "start_lease",
       (eventsByType (firstEventsOf events) "start_lease").flatMap
          (fun s => (eventsByLease (firstEventsOf events) s.lease_id).filter
            isBeforeEnd),
       (eventsByType (firstEventsOf events) "start_lease").flatMap
          (fun s => (eventsByLease (firstEventsOf events) s.lease_id).filter
            isEndType),
       events.filter (fun e => !((firstEventsOf events).contains e))] := by
  have hcond : events.isEmpty = false := by
    cases events with
    | nil => exact absurd rfl hne
    | cons a l => rfl
  have hfe : (firstEventsOf events).Nodup := hnd.filter _
  simp only [select_for_execution, hcond, Bool.false_eq_true, if_false,
    foldl_deferForStart_init (firstEventsOf events) hfe]

/-- Well-formedness of an event list (database invariant, spec section 3):
a lease has at most one `start_lease` event.  Under this hypothesis the
`list.remove` calls of the deferral loop always find their element, so
`List.erase` models them exactly. -/
def UniqueStart (events : List Event) : Prop :=
  ∀ e1 ∈ events, ∀ e2 ∈ events, isStartType e1 → isStartType e2 →
    e1.lease_id = e2.lease_id → e1 = e2

/-- Well-formedness of an event list (database invariant, spec section 3):
every event is a start, end or before-end event. -/
def ValidTypes (events : List Event) : Prop :=
  ∀ e ∈ events,
    e.event_type = "start_lease" ∨ e.event_type = "end_lease" ∨
      e.event_type = "before_end_lease"

theorem leaseHasStartIn_starts (fe : List Event) (lid : Nat) :
    leaseHasStartIn (eventsByType fe "start_lease") lid =
      hasStartSibling fe lid := by
  rw [Bool.eq_iff_iff]
  simp only [leaseHasStartIn, hasStartSibling, List.any_eq_true, eventsByType,
    List.mem_filter, isStartType, Bool.and_eq_true]
  constructor
  · rintro ⟨s, ⟨hs, ht⟩, hl⟩
    exact ⟨s, hs, ht, hl⟩
  · rintro ⟨s, hs, ht, hl⟩
    exact ⟨s, ⟨hs, ht⟩, hl⟩

theorem mem_deferred_iff (fe : List Event) (ty : Event → Bool) (x : Event) :
    (x ∈ (eventsByType fe "start_lease").flatMap
        (fun s => (eventsByLease fe s.lease_id).filter ty)) ↔
      x ∈ fe ∧ ty x ∧ hasStartSibling fe x.lease_id := by
  simp only [List.mem_flatMap, eventsByType, eventsByLease, List.mem_filter,
    hasStartSibling, List.any_eq_true, isStartType, Bool.and_eq_true,
    beq_iff_eq]
  constructor
  · rintro ⟨s, ⟨hs, ht⟩, ⟨hx, hl⟩, hty⟩
    exact ⟨hx, hty, s, hs, ht, hl.symm⟩
  · rintro ⟨hx, hty, s, hs, ht, hl⟩
    exact ⟨s, ⟨hs, ht⟩, ⟨hx, hl.symm⟩, hty⟩

theorem nodup_deferred (events : List Event) (hnd : events.Nodup)
    (hus : UniqueStart events) (ty : Event → Bool) :
    ((eventsByType (firstEventsOf events) "start_lease").flatMap
      (fun s => (eventsByLease (firstEventsOf events) s.lease_id).filter
        ty)).Nodup := by
  have hfe : (firstEventsOf events).Nodup := hnd.filter _
  have hsub : ∀ x ∈ firstEventsOf events, x ∈ events :=
    fun x hx => (List.mem_filter.mp hx).1
  have hstarts : (eventsByType (firstEventsOf events) "start_lease").Nodup :=
    hfe.filter _
  rw [List.nodup_flatMap]
  refine ⟨fun s _ => (hfe.filter _).filter _, ?_⟩
  refine hstarts.imp_of_mem ?_
  intro a b ha hb hab
  have haty : isStartType a := by
    have := (List.mem_filter.mp ha).2
    simpa [isStartType] using this
  have hbty : isStartType b := by
    have := (List.mem_filter.mp hb).2
    simpa [isStartType] using this
  have halease : a.lease_id ≠ b.lease_id := by
    intro h
    exact hab (hus a (hsub a (List.mem_filter.mp ha).1) b
      (hsub b (List.mem_filter.mp hb).1) haty hbty h)
  rw [Function.onFun, List.disjoint_left]
  intro x hxa hxb
  have h1 : x.lease_id = a.lease_id := by
    have := (List.mem_filter.mp (List.mem_filter.mp hxa).1).2
    simpa using this
  have h2 : x.lease_id = b.lease_id := by
    have := (List.mem_filter.mp (List.mem_filter.mp hxb).1).2
    simpa using this
  exact halease (h1 ▸ h2 ▸ rfl)

theorem laterEvents_sorted_eq (events : List Event)
    (hsorted : events.Sorted (fun a b => a.time ≤ b.time)) :
    events.filter (fun e => !((firstEventsOf events).contains e)) =
      events.filter (fun e => decide (events.headI.time < e.time)) := by
  refine List.filter_congr fun x hx => ?_
  have hle : events.headI.time ≤ x.time := by
    cases events with
    | nil => cases hx
    | cons hd tl =>
      rcases List.mem_cons.mp hx with h | h
      · subst h; exact le_refl _
      · exact List.rel_of_sorted_cons hsorted x h
  have hmem : (x ∈ firstEventsOf events) ↔ x.time = events.headI.time := by
    simp [firstEventsOf, List.mem_filter, hx]
  by_cases h : x.time = events.headI.time
  · have h1 : (firstEventsOf events).contains x = true := by
      simpa [List.elem_iff] using hmem.mpr h
    have h2 : ¬ events.headI.time < x.time := by omega
    rw [h1]
    simp [h2]
  · have h1 : (firstEventsOf events).contains x = false := by
      simp [List.elem_iff, hmem, h]
    have h2 : events.headI.time < x.time := lt_of_le_of_ne hle (fun hc => h hc.symm)
    rw [h1]
    simp [h2]

theorem deferred_perm (events : List Event) (hnd : events.Nodup)
    (hus : UniqueStart events) (ty : Event → Bool) :
    ((eventsByType (firstEventsOf events) "start_lease").flatMap
      (fun s => (eventsByLease (firstEventsOf events) s.lease_id).filter
        ty)).Perm
      ((firstEventsOf events).filter (fun e => ty e &&
        hasStartSibling (firstEventsOf events) e.lease_id)) := by
  have hndfe : (firstEventsOf events).Nodup := hnd.filter _
  rw [List.perm_ext_iff_of_nodup (nodup_deferred events hnd hus _)
    (hndfe.filter _)]
  intro x
  rw [mem_deferred_iff, List.mem_filter]
  simp [Bool.and_eq_true, and_assoc]

/-- The claim of batch selection: with `T` the time of the first event and
`first_events` the events at `T`, the result is exactly, in this order, the
non-deferred before-end events at `T`, the non-deferred end events at `T`,
the start events at `T`, the deferred before-end events, the deferred end
events (the two deferred batches hold exactly the before-end and end events
whose lease also has a start event at `T`), and the events with time
greater than `T`. -/
def SelectSpecBatches (events : List Event) : Prop :=
  ∃ defBe defEnd : List Event,
    select_for_execution events =
      [(firstEventsOf events).filter (fun e => isBeforeEnd e &&
          !(hasStartSibling (firstEventsOf events) e.lease_id)),
       (firstEventsOf events).filter (fun e => isEndType e &&
          !(hasStartSibling (firstEventsOf events) e.lease_id)),
       (firstEventsOf events).filter isStartType,
       defBe, defEnd,
       events.filter (fun e => decide (events.headI.time < e.time))] ∧
    defBe.Perm ((firstEventsOf events).filter (fun e => isBeforeEnd e &&
      hasStartSibling (firstEventsOf events) e.lease_id)) ∧
    defEnd.Perm ((firstEventsOf events).filter (fun e => isEndType e &&
      hasStartSibling (firstEventsOf events) e.lease_id))

/-- C1: for every non-empty list of events sorted ascending by time (without
duplicates and with at most one start event per lease, as the database
guarantees), `_select_for_execution` takes the events at the first time `T`,
defers the before-end and end events whose lease also has a start event at
`T`, and returns the batches in exactly the claimed order: non-deferred
before-end at `T`, non-deferred end at `T`, start at `T`, deferred
before-end, deferred end, then all events with time greater than `T`. -/
theorem c1_select_for_execution_batches (events : List Event)
    (hne : events ≠ []) (hsorted : events.Sorted (fun a b => a.time ≤ b.time))
    (hnd : events.Nodup) (hus : UniqueStart events) :
    SelectSpecBatches events := by
  have hA : (eventsByType (firstEventsOf events) "before_end_lease").filter
      (fun x => !(leaseHasStartIn
        (eventsByType (firstEventsOf events) "start_lease") x.lease_id)) =
      (firstEventsOf events).filter (fun e => isBeforeEnd e &&
        !(hasStartSibling (firstEventsOf events) e.lease_id)) := by
    simp only [leaseHasStartIn_starts]
    rw [eventsByType, List.filter_filter]
    refine List.filter_congr fun x _ => ?_
    simp only [isBeforeEnd]
    cases (x.event_type == "before_end_lease") <;>
      cases hasStartSibling (firstEventsOf events) x.lease_id <;> rfl
  have hB : (eventsByType (firstEventsOf events) "end_lease").filter
      (fun x => !(leaseHasStartIn
        (eventsByType (firstEventsOf events) "start_lease") x.lease_id)) =
      (firstEventsOf events).filter (fun e => isEndType e &&
        !(hasStartSibling (firstEventsOf events) e.lease_id)) := by
    simp only [leaseHasStartIn_starts]
    rw [eventsByType, List.filter_filter]
    refine List.filter_congr fun x _ => ?_
    simp only [isEndType]
    cases (x.event_type == "end_lease") <;>
      cases hasStartSibling (firstEventsOf events) x.lease_id <;> rfl
  have hC : eventsByType (firstEventsOf events) "start_lease" =
      (firstEventsOf events).filter isStartType := rfl
  refine ⟨(eventsByType (firstEventsOf events) "start_lease").flatMap
      (fun s => (eventsByLease (firstEventsOf events) s.lease_id).filter
        isBeforeEnd),
    (eventsByType (firstEventsOf events) "start_lease").flatMap
      (fun s => (eventsByLease (firstEventsOf events) s.lease_id).filter
        isEndType), ?_, ?_, ?_⟩
  · rw [select_for_execution_eq events hne hnd, hA, hB, hC,
      laterEvents_sorted_eq events hsorted]
  · exact deferred_perm events hnd hus isBeforeEnd
  · exact deferred_perm events hnd hus isEndType

theorem c1_select_for_execution_batches_witness :
    SelectSpecBatches
      [⟨1, 1, "end_lease", 0, "UNDONE"⟩, ⟨2, 2, "start_lease", 0, "UNDONE"⟩,
       ⟨3, 2, "before_end_lease", 0, "UNDONE"⟩,
       ⟨4, 3, "start_lease", 5, "UNDONE"⟩] :=
  c1_select_for_execution_batches _ (by decide) (by decide) (by decide)
    (by unfold UniqueStart; decide)

/-- The ordering property claimed for batch selection, stated through the
batch index an event lands in (batches run in index order): an end event at
the first time `T` without a start sibling lands in batch 1, every start
event at `T` lands in batch 2, and the before-end and end events of a lease
that also has a start event at `T` land in batches 3 and 4. -/
def EndBeforeStartOrdering (events : List Event) : Prop :=
  (∀ e ∈ events, e.time = events.headI.time → isEndType e →
      hasStartSibling (firstEventsOf events) e.lease_id = false →
      e ∈ (select_for_execution events).getD 1 []) ∧
  (∀ s ∈ events, s.time = events.headI.time → isStartType s →
      s ∈ (select_for_execution events).getD 2 []) ∧
  (∀ e ∈ events, e.time = events.headI.time → isBeforeEnd e →
      hasStartSibling (firstEventsOf events) e.lease_id = true →
      e ∈ (select_for_execution events).getD 3 []) ∧
  (∀ e ∈ events, e.time = events.headI.time → isEndType e →
      hasStartSibling (firstEventsOf events) e.lease_id = true →
      e ∈ (select_for_execution events).getD 4 [])

/-- C2: for a sorted event list with first time `T`, every end event at `T`
whose lease has no start event at `T` is placed in an earlier batch (index 1)
than every start event at `T` (index 2); and for a lease with both a start
event and a before-end or end event at `T`, the start event (index 2) is
placed in an earlier batch than the deferred before-end (index 3)
and end (index 4) events. -/
theorem c2_end_before_start_ordering (events : List Event)
    (hne : events ≠ []) (hsorted : events.Sorted (fun a b => a.time ≤ b.time))
    (hnd : events.Nodup) (hus : UniqueStart events) :
    EndBeforeStartOrdering events := by
  have heq := select_for_execution_eq events hne hnd
  unfold EndBeforeStartOrdering
  have h1 : (select_for_execution events).getD 1 [] =
      (eventsByType (firstEventsOf events) "end_lease").filter
        (fun x => !(leaseHasStartIn
          (eventsByType (firstEventsOf events) "start_lease") x.lease_id)) := by
    rw [heq]
    rfl
  have h2 : (select_for_execution events).getD 2 [] =
      eventsByType (firstEventsOf events) "start_lease" := by
    rw [heq]
    rfl
  have h3 : (select_for_execution events).getD 3 [] =
      (eventsByType (firstEventsOf events) "start_lease").flatMap
        (fun s => (eventsByLease (firstEventsOf events) s.lease_id).filter
          isBeforeEnd) := by
    rw [heq]
    rfl
  have h4 : (select_for_execution events).getD 4 [] =
      (eventsByType (firstEventsOf events) "start_lease").flatMap
        (fun s => (eventsByLease (firstEventsOf events) s.lease_id).filter
          isEndType) := by
    rw [heq]
    rfl
  refine ⟨?_, ?_, ?_, ?_⟩
  · intro e he ht hty hhas
    have hefe : e ∈ firstEventsOf events := by
      simp [firstEventsOf, List.mem_filter, he, ht]
    have hmem : e ∈ eventsByType (firstEventsOf events) "end_lease" := by
      simp only [eventsByType, List.mem_filter]
      exact ⟨hefe, by simpa [isEndType] using hty⟩
    rw [h1]
    simp [List.mem_filter, hmem, leaseHasStartIn_starts, hhas]
  · intro s hs ht hty
    have hsfe : s ∈ firstEventsOf events := by
      simp [firstEventsOf, List.mem_filter, hs, ht]
    rw [h2]
    simp only [eventsByType, List.mem_filter]
    exact ⟨hsfe, by simpa [isStartType] using hty⟩
  · intro e he ht hty hhas
    have hefe : e ∈ firstEventsOf events := by
      simp [firstEventsOf, List.mem_filter, he, ht]
    rw [h3, mem_deferred_iff]
    exact ⟨hefe, hty, hhas⟩
  · intro e he ht hty hhas
    have hefe : e ∈ firstEventsOf events := by
      simp [firstEventsOf, List.mem_filter, he, ht]
    rw [h4, mem_deferred_iff]
    exact ⟨hefe, hty, hhas⟩

theorem c2_end_before_start_ordering_witness :
    EndBeforeStartOrdering
      [⟨1, 1, "end_lease", 0, "UNDONE"⟩, ⟨2, 2, "start_lease", 0, "UNDONE"⟩,
       ⟨3, 2, "before_end_lease", 0, "UNDONE"⟩,
       ⟨4, 2, "end_lease", 0, "UNDONE"⟩] :=
  c2_end_before_start_ordering _ (by decide) (by decide) (by decide)
    (by unfold UniqueStart; decide)

theorem count_filter_eq (p : Event → Bool) (l : List Event) (a : Event) :
    (l.filter p).count a = if p a then l.count a else 0 := by
  by_cases h : p a
  · rw [if_pos h]
    exact List.count_filter h
  · rw [if_neg h]
    refine List.count_eq_zero_of_not_mem ?_
    simp [List.mem_filter, h]

/-- C10: on a non-empty sorted event list satisfying the database invariants
(no duplicate rows, at most one start event per lease, only the three event
types), the six batches returned by `_select_for_execution` are a partition
of the input: their concatenation is a permutation of the input list, so
every event lands in exactly one batch and none is duplicated or dropped. -/
theorem c10_select_for_execution_partition (events : List Event)
    (hne : events ≠ []) (hsorted : events.Sorted (fun a b => a.time ≤ b.time))
    (hnd : events.Nodup) (hus : UniqueStart events)
    (hvt : ValidTypes events) :
    ((select_for_execution events).flatten).Perm events := by
  rw [select_for_execution_eq events hne hnd, List.perm_iff_count]
  intro a
  have hD := (deferred_perm events hnd hus isBeforeEnd).count_eq a
  have hE := (deferred_perm events hnd hus isEndType).count_eq a
  simp only [List.flatten_cons, List.flatten_nil, List.count_append,
    List.append_nil, hD, hE]
  simp only [leaseHasStartIn_starts]
  simp only [eventsByType, firstEventsOf, count_filter_eq]
  by_cases ha : a ∈ events
  · have hcont : (events.filter
        (fun e => e.time == events.headI.time)).contains a =
        decide (a.time = events.headI.time) := by
      by_cases h : a.time = events.headI.time
      · simp [List.elem_iff, List.mem_filter, ha, h]
      · simp [List.elem_iff, List.mem_filter, h]
    rw [hcont]
    rcases hvt a ha with hty | hty | hty <;>
      by_cases htime : a.time = events.headI.time <;>
      by_cases hhas : hasStartSibling
        (events.filter (fun e => e.time == events.headI.time)) a.lease_id <;>
      simp [isBeforeEnd, isEndType, isStartType, hty, htime, hhas]
  · have h0 : events.count a = 0 := List.count_eq_zero_of_not_mem ha
    rw [h0]
    split_ifs <;> simp

theorem c10_select_for_execution_partition_witness :
    ((select_for_execution
      [⟨1, 1, "end_lease", 0, "UNDONE"⟩, ⟨2, 2, "start_lease", 0, "UNDONE"⟩,
       ⟨3, 2, "before_end_lease", 0, "UNDONE"⟩,
       ⟨4, 3, "start_lease", 5, "UNDONE"⟩]).flatten).Perm
      [⟨1, 1, "end_lease", 0, "UNDONE"⟩, ⟨2, 2, "start_lease", 0, "UNDONE"⟩,
       ⟨3, 2, "before_end_lease", 0, "UNDONE"⟩,
       ⟨4, 3, "start_lease", 5, "UNDONE"⟩] :=
  c10_select_for_execution_partition _ (by decide) (by decide) (by decide)
    (by unfold UniqueStart; decide) (by unfold ValidTypes; decide)

/-- Possible outcomes of running an event handler (`start_lease`,
`end_lease` or `before_end_lease`) inside `_exec_event`: normal return, an
`InvalidStatus` exception, or any other exception.  The handlers call
external plugins, so the outcome is a parameter of the model. -/
inductive HandlerOutcome
  | success
  | invalidStatus
  | otherException
deriving DecidableEq, Repr

/-- Observable side effects of the manager: database status updates of
events, reservations and leases, lease destruction, plugin calls and
notifications. -/
inductive ManagerEffect
  | eventUpdate (event_id : Nat) (newStatus : String)
  | reservationUpdate (reservation_id : Nat) (newStatus : String)
  | actionCall (resource_id : Nat)
  | onEndCall (reservation_id : Nat)
  | enforcementOnEnd
  | leaseDestroy (lease_id : Nat)
  | sendNotification (topic : String)
deriving DecidableEq, Repr

/-- Shallow embedding of `ManagerService._exec_event`
(`blazar/manager/service.py`): run the handler for the event; on
`InvalidStatus`, revert the event to UNDONE if the current time is still
before the event time plus `event_max_retries * 10` seconds, else mark it
ERROR; on any other exception mark it ERROR; on success send the
`event.<event_type>` notification. -/
def exec_event (event : Event) (outcome : HandlerOutcome) (now : Int)
    (event_max_retries : Nat) : List ManagerEffect :=
  match outcome with
  | .invalidStatus =>
      if now < event.time + (event_max_retries : Int) * 10 then
        [.eventUpdate event.id "UNDONE"]
      else
        [.eventUpdate event.id "ERROR"]
  | .otherException => [.eventUpdate event.id "ERROR"]
  | .success => [.sendNotification ("event." ++ event.event_type)]

/-- C3: on an `InvalidStatus` exception before the retry deadline
(`time + event_max_retries * 10` seconds) the event is set back to UNDONE;
on `InvalidStatus` past the deadline, or on any other exception, it is set
to ERROR; and the `event.<event_type>` notification is sent exactly when
the handler raised no exception. -/
theorem c3_exec_event_retry (event : Event) (outcome : HandlerOutcome)
    (now : Int) (event_max_retries : Nat) :
    (outcome = .invalidStatus →
        now < event.time + (event_max_retries : Int) * 10 →
        exec_event event outcome now event_max_retries =
          [.eventUpdate event.id "UNDONE"]) ∧
    (outcome = .invalidStatus →
        ¬ now < event.time + (event_max_retries : Int) * 10 →
        exec_event event outcome now event_max_retries =
          [.eventUpdate event.id "ERROR"]) ∧
    (outcome = .otherException →
        exec_event event outcome now event_max_retries =
          [.eventUpdate event.id "ERROR"]) ∧
    ((ManagerEffect.sendNotification ("event." ++ event.event_type) ∈
        exec_event event outcome now event_max_retries) ↔
      outcome = .success) := by
  refine ⟨?_, ?_, ?_, ?_⟩
  · rintro rfl h
    simp [exec_event, h]
  · rintro rfl h
    simp [exec_event, h]
  · rintro rfl
    simp [exec_event]
  · constructor
    · intro h
      cases outcome with
      | success => rfl
      | invalidStatus =>
        rw [exec_event] at h
        split at h <;> simp at h
      | otherException => simp [exec_event] at h
    · rintro rfl
      simp [exec_event]

theorem c3_exec_event_retry_witness :
    (HandlerOutcome.invalidStatus = .invalidStatus →
        (5 : Int) < (0 : Int) + ((1 : Nat) : Int) * 10 →
        exec_event ⟨7, 1, "start_lease", 0, "IN_PROGRESS"⟩ .invalidStatus 5 1 =
          [.eventUpdate 7 "UNDONE"]) ∧
    (HandlerOutcome.invalidStatus = .invalidStatus →
        ¬ (5 : Int) < (0 : Int) + ((1 : Nat) : Int) * 10 →
        exec_event ⟨7, 1, "start_lease", 0, "IN_PROGRESS"⟩ .invalidStatus 5 1 =
          [.eventUpdate 7 "ERROR"]) ∧
    (HandlerOutcome.invalidStatus = .otherException →
        exec_event ⟨7, 1, "start_lease", 0, "IN_PROGRESS"⟩ .invalidStatus 5 1 =
          [.eventUpdate 7 "ERROR"]) ∧
    ((ManagerEffect.sendNotification ("event." ++ "start_lease") ∈
        exec_event ⟨7, 1, "start_lease", 0, "IN_PROGRESS"⟩ .invalidStatus 5 1) ↔
      HandlerOutcome.invalidStatus = .success) :=
  c3_exec_event_retry ⟨7, 1, "start_lease", 0, "IN_PROGRESS"⟩
    .invalidStatus 5 1

/-- Row of the reservation table (the fields used by the manager):
`{id, resource_type, resource_id, status}`. -/
structure Reservation where
  id : Nat
  resource_type : String
  resource_id : Nat
  status : String
deriving DecidableEq, Repr

/-- Lease row together with its reservations, as used by teardown and the
basic lifecycle actions. -/
structure LeaseRec where
  id : Nat
  reservations : List Reservation
deriving DecidableEq, Repr

/-- Insert `a` after every element whose key is not greater, as the Python
stable sort does for an element arriving later in the input. -/
def insTail (key : Reservation → Nat) (a : Reservation) :
    List Reservation → List Reservation
  | [] => [a]
  | b :: l => if key a < key b then a :: b :: l else b :: insTail key a l

/-- Model of Python `sorted(xs, key=key)`: a stable sort, ascending by key.
Elements are inserted left to right; an element never moves past one with a
smaller or equal key, which preserves the input order of equal keys. -/
def pyStableSort (key : Reservation → Nat) (l : List Reservation) :
    List Reservation :=
  l.foldl (fun acc a => insTail key a acc) []

/-- The `execution_order` weight of
`ManagerService._reservations_execution_ordered`:
the dictionary maps `default` to 0 and `network` to 1, and the lookup
falls back to the `default` entry for any other resource type. -/
def execution_order_weight (resource_type : String) : Nat :=
  if resource_type = "network" then 1 else 0

/-- Shallow embedding of `ManagerService._reservations_execution_ordered`
(`blazar/manager/service.py`): sort the reservations of the lease by the
execution-order weight of their resource type with Python `sorted`. -/
def reservations_execution_ordered (lease : LeaseRec) : List Reservation :=
  pyStableSort (fun res => execution_order_weight res.resource_type)
    lease.reservations

theorem insTail_key_zero (key : Reservation → Nat) (a : Reservation)
    (ha : key a = 0) (A0 A1 : List Reservation)
    (h0 : ∀ x ∈ A0, key x = 0) (h1 : ∀ x ∈ A1, 0 < key x) :
    insTail key a (A0 ++ A1) = A0 ++ a :: A1 := by
  induction A0 with
  | nil =>
    cases A1 with
    | nil => rfl
    | cons b l =>
      have : key a < key b := by
        have := h1 b (List.mem_cons_self b l)
        omega
      simp [insTail, this]
  | cons c A0 ih =>
    have hc : ¬ key a < key c := by
      have := h0 c (List.mem_cons_self c A0)
      omega
    have hstep : insTail key a ((c :: A0) ++ A1) =
        c :: insTail key a (A0 ++ A1) := by
      simp [insTail, hc]
    rw [hstep, ih (fun x hx => h0 x (List.mem_cons_of_mem c hx))]
    rfl

theorem insTail_key_max (key : Reservation → Nat) (a : Reservation)
    (L : List Reservation) (h : ∀ x ∈ L, ¬ key a < key x) :
    insTail key a L = L ++ [a] := by
  induction L with
  | nil => rfl
  | cons b l ih =>
    have hb : ¬ key a < key b := h b (List.mem_cons_self b l)
    have hstep : insTail key a (b :: l) = b :: insTail key a l := by
      simp [insTail, hb]
    rw [hstep, ih (fun x hx => h x (List.mem_cons_of_mem b hx))]
    rfl

theorem pyStableSort_two_valued (key : Reservation → Nat)
    (hkey : ∀ a, key a ≤ 1) (l : List Reservation) :
    ∀ (A0 A1 : List Reservation), (∀ x ∈ A0, key x = 0) →
      (∀ x ∈ A1, key x = 1) →
      l.foldl (fun acc a => insTail key a acc) (A0 ++ A1) =
        (A0 ++ l.filter (fun a => key a == 0)) ++
          (A1 ++ l.filter (fun a => !(key a == 0))) := by
  induction l with
  | nil =>
    intro A0 A1 h0 h1
    simp
  | cons a l ih =>
    intro A0 A1 h0 h1
    rw [List.foldl_cons]
    by_cases ha : key a = 0
    · have hins : insTail key a (A0 ++ A1) = (A0 ++ [a]) ++ A1 := by
        rw [insTail_key_zero key a ha A0 A1 h0
          (fun x hx => by have := h1 x hx; omega)]
        simp
      rw [hins, ih (A0 ++ [a]) A1 ?_ h1]
      · simp [List.filter_cons, ha]
      · intro x hx
        rcases List.mem_append.mp hx with h | h
        · exact h0 x h
        · simp only [List.mem_singleton] at h
          subst h; exact ha
    · have ha1 : key a = 1 := by have := hkey a; omega
      have hins : insTail key a (A0 ++ A1) = A0 ++ (A1 ++ [a]) := by
        rw [insTail_key_max key a (A0 ++ A1) ?_]
        · simp
        · intro x hx
          rcases List.mem_append.mp hx with h | h
          · have := h0 x h; omega
          · have := h1 x h; omega
      rw [hins, ih A0 (A1 ++ [a]) h0 ?_]
      · simp [List.filter_cons, ha]
      · intro x hx
        rcases List.mem_append.mp hx with h | h
        · exact h1 x h
        · simp only [List.mem_singleton] at h
          subst h; exact ha1

theorem reservations_execution_ordered_eq (lease : LeaseRec) :
    reservations_execution_ordered lease =
      lease.reservations.filter
        (fun res => !(res.resource_type == "network")) ++
      lease.reservations.filter (fun res => res.resource_type == "network") := by
  rw [reservations_execution_ordered, pyStableSort]
  have h := pyStableSort_two_valued
    (fun res => execution_order_weight res.resource_type)
    (fun a => by simp [execution_order_weight]; split <;> omega)
    lease.reservations [] [] (by simp) (by simp)
  simp only [List.nil_append] at h
  rw [h]
  congr 1
  · refine List.filter_congr fun x _ => ?_
    simp only [execution_order_weight]
    by_cases hx : x.resource_type = "network" <;> simp [hx]
  · refine List.filter_congr fun x _ => ?_
    simp only [execution_order_weight]
    by_cases hx : x.resource_type = "network" <;> simp [hx]

/-- C7: `_reservations_execution_ordered` returns the reservations sorted by
a weight that is 1 for resource type `network` and 0 for every other type,
stably: the result is exactly the non-network reservations in their original
order followed by the network reservations in their original order, so
network reservations always come last and every other reservation keeps its
relative position. -/
theorem c7_reservations_execution_ordered (lease : LeaseRec) :
    reservations_execution_ordered lease =
      lease.reservations.filter
        (fun res => !(res.resource_type == "network")) ++
      lease.reservations.filter
        (fun res => res.resource_type == "network") :=
  reservations_execution_ordered_eq lease

theorem mem_reservations_execution_ordered (lease : LeaseRec)
    (r : Reservation) :
    r ∈ reservations_execution_ordered lease ↔ r ∈ lease.reservations := by
  rw [reservations_execution_ordered_eq]
  by_cases h : r.resource_type = "network" <;>
    simp [List.mem_append, List.mem_filter, h]

/-- One iteration of the reservation loop of `ManagerService._basic_action`
(`blazar/manager/service.py`).  The accumulator holds the effects so far and
`event_status`.  If a target reservation status is given and the transition
from the current status is invalid, `InvalidStatus` is raised before the
plugin action; any exception is caught, the reservation is set to ERROR and
`event_status` becomes ERROR; otherwise the plugin action runs
(`actionCall`) and, when a target status is given, the reservation is
updated to it.  `valid_transition` models
`status.reservation.is_valid_transition` (the status module is not under
src/) and `action_fails` models failure of the plugin action (or of the
action lookup), both external to this file. -/
def basic_action_step (reservation_status : Option String)
    (valid_transition : String → String → Bool)
    (action_fails : Reservation → Bool)
    (acc : List ManagerEffect × String) (r : Reservation) :
    List ManagerEffect × String :=
  match reservation_status with
  | some rs =>
      if !(valid_transition r.status rs) then
        (acc.1 ++ [.reservationUpdate r.id "ERROR"], "ERROR")
      else if action_fails r then
        (acc.1 ++ [.actionCall r.resource_id,
                   .reservationUpdate r.id "ERROR"], "ERROR")
      else
        (acc.1 ++ [.actionCall r.resource_id,
                   .reservationUpdate r.id rs], acc.2)
  | none =>
      if action_fails r then
        (acc.1 ++ [.actionCall r.resource_id,
                   .reservationUpdate r.id "ERROR"], "ERROR")
      else
        (acc.1 ++ [.actionCall r.resource_id], acc.2)

/-- A reservation fails in `_basic_action`: either the status transition is
invalid (when a target status is given) or the plugin action raises. -/
def reservation_action_fails (reservation_status : Option String)
    (valid_transition : String → String → Bool)
    (action_fails : Reservation → Bool) (r : Reservation) : Bool :=
  match reservation_status with
  | some rs => !(valid_transition r.status rs) || action_fails r
  | none => action_fails r

/-- The effects one loop iteration of `_basic_action` appends for a
reservation. -/
def basic_action_emitted (reservation_status : Option String)
    (valid_transition : String → String → Bool)
    (action_fails : Reservation → Bool) (r : Reservation) :
    List ManagerEffect :=
  match reservation_status with
  | some rs =>
      if !(valid_transition r.status rs) then
        [.reservationUpdate r.id "ERROR"]
      else if action_fails r then
        [.actionCall r.resource_id, .reservationUpdate r.id "ERROR"]
      else
        [.actionCall r.resource_id, .reservationUpdate r.id rs]
  | none =>
      if action_fails r then
        [.actionCall r.resource_id, .reservationUpdate r.id "ERROR"]
      else
        [.actionCall r.resource_id]

/-- Shallow embedding of `ManagerService._basic_action`
(`blazar/manager/service.py`): iterate the reservations in execution order,
starting from `event_status = DONE`; finally update the event to the
resulting status.  Returns the effects and the final event status (the
source returns `event_status`). -/
def basic_action (lease : LeaseRec) (event_id : Nat)
    (reservation_status : Option String)
    (valid_transition : String → String → Bool)
    (action_fails : Reservation → Bool) : List ManagerEffect × String :=
  let res := (reservations_execution_ordered lease).foldl
    (basic_action_step reservation_status valid_transition action_fails)
    ([], "DONE")
  (res.1 ++ [.eventUpdate event_id res.2], res.2)

theorem basic_action_step_eq (reservation_status : Option String)
    (valid_transition : String → String → Bool)
    (action_fails : Reservation → Bool)
    (acc : List ManagerEffect × String) (r : Reservation) :
    basic_action_step reservation_status valid_transition action_fails acc r =
      (acc.1 ++ basic_action_emitted reservation_status valid_transition
          action_fails r,
       if reservation_action_fails reservation_status valid_transition
          action_fails r then "ERROR" else acc.2) := by
  cases reservation_status with
  | none =>
    by_cases h : action_fails r <;>
      simp [basic_action_step, basic_action_emitted,
        reservation_action_fails, h]
  | some rs =>
    by_cases h1 : valid_transition r.status rs
    · by_cases h2 : action_fails r <;>
        simp [basic_action_step, basic_action_emitted,
          reservation_action_fails, h1, h2]
    · simp [basic_action_step, basic_action_emitted,
        reservation_action_fails, h1]

theorem basic_action_foldl (reservation_status : Option String)
    (valid_transition : String → String → Bool)
    (action_fails : Reservation → Bool) (l : List Reservation) :
    ∀ (eff : List ManagerEffect) (st : String),
    l.foldl (basic_action_step reservation_status valid_transition
      action_fails) (eff, st) =
      (eff ++ l.flatMap (basic_action_emitted reservation_status
          valid_transition action_fails),
       if l.all (fun r => !(reservation_action_fails reservation_status
          valid_transition action_fails r)) then st else "ERROR") := by
  induction l with
  | nil =>
    intro eff st
    simp
  | cons r l ih =>
    intro eff st
    rw [List.foldl_cons, basic_action_step_eq]
    by_cases h : reservation_action_fails reservation_status
        valid_transition action_fails r
    · rw [if_pos h, ih]
      have hall : (r :: l).all (fun r => !(reservation_action_fails
          reservation_status valid_transition action_fails r)) = false := by
        simp only [List.all_cons, h, Bool.not_true, Bool.false_and]
      rw [hall]
      refine Prod.mk.injEq .. ▸ ⟨?_, ?_⟩
      · simp [List.flatMap_cons, List.append_assoc]
      · simp
    · have hf : reservation_action_fails reservation_status
          valid_transition action_fails r = false := by
        simpa using h
      rw [if_neg h, ih]
      have hall : (r :: l).all (fun r => !(reservation_action_fails
          reservation_status valid_transition action_fails r)) =
          l.all (fun r => !(reservation_action_fails reservation_status
            valid_transition action_fails r)) := by
        simp only [List.all_cons, hf, Bool.not_false, Bool.true_and]
      rw [hall]
      refine Prod.mk.injEq .. ▸ ⟨?_, rfl⟩
      simp [List.flatMap_cons, List.append_assoc]

theorem mem_emitted_error (reservation_status : Option String)
    (valid_transition : String → String → Bool)
    (action_fails : Reservation → Bool) (r : Reservation)
    (h : reservation_action_fails reservation_status valid_transition
      action_fails r = true) :
    ManagerEffect.reservationUpdate r.id "ERROR" ∈
      basic_action_emitted reservation_status valid_transition
        action_fails r := by
  cases reservation_status with
  | none =>
    simp only [reservation_action_fails] at h
    simp [basic_action_emitted, h]
  | some rs =>
    simp only [reservation_action_fails, Bool.or_eq_true,
      Bool.not_eq_true'] at h
    rcases h with h | h
    · simp [basic_action_emitted, h]
    · by_cases hv : valid_transition r.status rs <;>
        simp [basic_action_emitted, hv, h]

theorem mem_emitted_call (reservation_status : Option String)
    (valid_transition : String → String → Bool)
    (action_fails : Reservation → Bool) (r : Reservation)
    (h : reservation_action_fails reservation_status valid_transition
      action_fails r = false) :
    ManagerEffect.actionCall r.resource_id ∈
      basic_action_emitted reservation_status valid_transition
        action_fails r := by
  cases reservation_status with
  | none =>
    simp only [reservation_action_fails] at h
    simp [basic_action_emitted, h]
  | some rs =>
    simp only [reservation_action_fails, Bool.or_eq_false_iff,
      Bool.not_eq_false'] at h
    simp [basic_action_emitted, h.1, h.2]

/-- The claim about `_basic_action`: a failing reservation (invalid status
transition or failed plugin action) is set to ERROR while the remaining
reservations are still processed (their plugin action is called), and the
final event status is DONE if and only if every reservation succeeded,
otherwise ERROR; that final status is written to the event. -/
def BasicActionSpec (lease : LeaseRec) (event_id : Nat)
    (reservation_status : Option String)
    (valid_transition : String → String → Bool)
    (action_fails : Reservation → Bool) : Prop :=
  (∀ r ∈ lease.reservations,
      reservation_action_fails reservation_status valid_transition
        action_fails r = true →
      ManagerEffect.reservationUpdate r.id "ERROR" ∈
        (basic_action lease event_id reservation_status valid_transition
          action_fails).1) ∧
  (∀ r ∈ lease.reservations,
      reservation_action_fails reservation_status valid_transition
        action_fails r = false →
      ManagerEffect.actionCall r.resource_id ∈
        (basic_action lease event_id reservation_status valid_transition
          action_fails).1) ∧
  ((basic_action lease event_id reservation_status valid_transition
      action_fails).2 = "DONE" ↔
    ∀ r ∈ lease.reservations,
      reservation_action_fails reservation_status valid_transition
        action_fails r = false) ∧
  ((basic_action lease event_id reservation_status valid_transition
      action_fails).2 = "DONE" ∨
   (basic_action lease event_id reservation_status valid_transition
      action_fails).2 = "ERROR") ∧
  ManagerEffect.eventUpdate event_id
      (basic_action lease event_id reservation_status valid_transition
        action_fails).2 ∈
    (basic_action lease event_id reservation_status valid_transition
      action_fails).1

/-- C8: in every `_basic_action` run (as used by `start_lease`, `end_lease`
and `before_end_lease`), a reservation whose status transition or plugin
action fails is set to ERROR while the remaining reservations are still
processed, and the final event status is DONE iff every reservation
succeeded, otherwise ERROR. -/
theorem c8_basic_action (lease : LeaseRec) (event_id : Nat)
    (reservation_status : Option String)
    (valid_transition : String → String → Bool)
    (action_fails : Reservation → Bool) :
    BasicActionSpec lease event_id reservation_status valid_transition
      action_fails := by
  have hba : basic_action lease event_id reservation_status valid_transition
      action_fails =
      ((reservations_execution_ordered lease).flatMap
          (basic_action_emitted reservation_status valid_transition
            action_fails) ++
        [.eventUpdate event_id
          (if (reservations_execution_ordered lease).all
              (fun r => !(reservation_action_fails reservation_status
                valid_transition action_fails r))
            then "DONE" else "ERROR")],
       if (reservations_execution_ordered lease).all
          (fun r => !(reservation_action_fails reservation_status
            valid_transition action_fails r))
        then "DONE" else "ERROR") := by
    unfold basic_action
    rw [basic_action_foldl]
    simp
  have hallmem : ((reservations_execution_ordered lease).all
      (fun r => !(reservation_action_fails reservation_status
        valid_transition action_fails r)) = true) ↔
      ∀ r ∈ lease.reservations,
        reservation_action_fails reservation_status valid_transition
          action_fails r = false := by
    rw [List.all_eq_true]
    constructor
    · intro h r hr
      have := h r ((mem_reservations_execution_ordered lease r).mpr hr)
      simpa using this
    · intro h r hr
      have := h r ((mem_reservations_execution_ordered lease r).mp hr)
      simpa using this
  unfold BasicActionSpec
  refine ⟨?_, ?_, ?_, ?_, ?_⟩
  · intro r hr hfail
    rw [hba]
    refine List.mem_append_left _ ?_
    rw [List.mem_flatMap]
    exact ⟨r, (mem_reservations_execution_ordered lease r).mpr hr,
      mem_emitted_error _ _ _ r hfail⟩
  · intro r hr hok
    rw [hba]
    refine List.mem_append_left _ ?_
    rw [List.mem_flatMap]
    exact ⟨r, (mem_reservations_execution_ordered lease r).mpr hr,
      mem_emitted_call _ _ _ r hok⟩
  · rw [hba]
    by_cases hall : (reservations_execution_ordered lease).all
        (fun r => !(reservation_action_fails reservation_status
          valid_transition action_fails r)) = true
    · rw [if_pos hall]
      exact iff_of_true rfl (hallmem.mp hall)
    · rw [if_neg hall]
      constructor
      · intro h
        exact absurd h (by decide : ("ERROR" : String) ≠ "DONE")
      · intro h
        exact absurd (hallmem.mpr h) hall
  · rw [hba]
    split
    · exact Or.inl rfl
    · exact Or.inr rfl
  · rw [hba]
    exact List.mem_append_right _ (List.mem_singleton.mpr rfl)

theorem c8_basic_action_witness :
    BasicActionSpec
      ⟨1, [⟨1, "physical:host", 10, "PENDING"⟩, ⟨2, "network", 20, "PENDING"⟩]⟩
      5 (some "ACTIVE") (fun _ _ => true) (fun r => r.id == 2) :=
  c8_basic_action _ _ _ _ _

/-- Outcome of a `plugin.on_end` call during `delete_lease`: success, a
failure of one of the kinds the loop catches (`BlazarDBException` or
`RuntimeError`), or an exception of another type, which propagates out of
`delete_lease` at once. -/
inductive OnEndResult
  | ok
  | caughtError
  | uncaughtError
deriving DecidableEq, Repr

/-- Errors `delete_lease` can terminate with in this model. -/
inductive DeleteError
  | eventError
  | propagatedException
deriving DecidableEq, Repr

/-- The reservation teardown loop of `ManagerService.delete_lease`
(`blazar/manager/service.py`): for every reservation whose status is not
DELETED call `plugin.on_end`; a caught failure sets the `unclean_end` flag
and the loop continues; an uncaught exception aborts the loop.  Returns the
plugin-call effects, the `unclean_end` flag and the propagated error, if
any. -/
def delete_reservations (on_end : Reservation → OnEndResult) :
    List Reservation → List ManagerEffect × Bool × Option DeleteError
  | [] => ([], false, none)
  | r :: rest =>
      if r.status == "DELETED" then delete_reservations on_end rest
      else
        match on_end r with
        | .ok =>
            let res := delete_reservations on_end rest
            (.onEndCall r.id :: res.1, res.2.1, res.2.2)
        | .caughtError =>
            let res := delete_reservations on_end rest
            (.onEndCall r.id :: res.1, true, res.2.2)
        | .uncaughtError =>
            ([.onEndCall r.id], false, some .propagatedException)

/-- Shallow embedding of `ManagerService.delete_lease`
(`blazar/manager/service.py`), from the point where the start and end
events have been loaded (their statuses are parameters; the lease-status
decorator lives in the `blazar/status` module, outside this repository
snapshot, and does not affect the claimed effects).  If the lease has
started but not ended, the end event is first marked IN_PROGRESS;
enforcement `on_end` runs when the lease has not started or not ended (its
failures are only logged); then every non-deleted reservation is torn down;
if any teardown failed with a caught error, `EventError` is raised, else
the end event is marked DONE (when applicable), the lease row is destroyed
and the `lease.delete` notification is sent. -/
def delete_lease (lease : LeaseRec) (start_status end_status : String)
    (end_event_id : Nat) (on_end : Reservation → OnEndResult) :
    List ManagerEffect × Option DeleteError :=
  let lease_already_started := !(start_status == "UNDONE")
  let lease_not_started := !lease_already_started
  let lease_already_ended := !(end_status == "UNDONE")
  let lease_not_ended := !lease_already_ended
  let end_lease := lease_already_started && lease_not_ended
  let eff1 : List ManagerEffect :=
    if end_lease then [.eventUpdate end_event_id "IN_PROGRESS"] else []
  let eff2 : List ManagerEffect :=
    if lease_not_started || lease_not_ended then [.enforcementOnEnd] else []
  let res := delete_reservations on_end (reservations_execution_ordered lease)
  match res.2.2 with
  | some e => (eff1 ++ eff2 ++ res.1, some e)
  | none =>
      if res.2.1 then (eff1 ++ eff2 ++ res.1, some .eventError)
      else (eff1 ++ eff2 ++ res.1 ++
          (if end_lease then [.eventUpdate end_event_id "DONE"] else []) ++
          [.leaseDestroy lease.id, .sendNotification "lease.delete"], none)

theorem delete_reservations_eq (on_end : Reservation → OnEndResult) :
    ∀ (l : List Reservation),
    (∀ r ∈ l, on_end r ≠ .uncaughtError) →
    delete_reservations on_end l =
      (l.flatMap (fun r => if r.status == "DELETED" then []
          else [ManagerEffect.onEndCall r.id]),
       l.any (fun r => !(r.status == "DELETED") &&
          (on_end r == OnEndResult.caughtError)),
       none)
  | [], _ => by simp [delete_reservations]
  | r :: rest, hq => by
    have hrest := delete_reservations_eq on_end rest
      (fun x hx => hq x (List.mem_cons_of_mem r hx))
    by_cases hdel : r.status == "DELETED"
    · have hdel2 : r.status = "DELETED" := by simpa using hdel
      rw [delete_reservations, if_pos hdel, hrest]
      simp [hdel2]
    · have hdel2 : ¬ r.status = "DELETED" := by simpa using hdel
      have hne := hq r (List.mem_cons_self r rest)
      rw [delete_reservations, if_neg hdel]
      cases hoe : on_end r with
      | ok =>
        rw [hrest]
        simp [hdel2, hoe]
      | caughtError =>
        rw [hrest]
        simp [hdel2, hoe]
      | uncaughtError => exact absurd hoe hne

/-- C6 counterexample: a lease with one ACTIVE reservation whose `on_end`
fails with a caught error.  `delete_lease` raises `EventError`, and the
`lease.delete` notification is NOT emitted (the raise happens before the
notification call), contradicting the claim that the notification is
emitted in every `delete_lease` call including the unclean-end case; the
lease row is also not destroyed. -/
theorem c6_delete_lease_counterexample :
    (delete_lease ⟨1, [⟨1, "physical:host", 10, "ACTIVE"⟩]⟩ "DONE" "UNDONE" 9
        (fun _ => .caughtError)).2 = some .eventError ∧
    ManagerEffect.sendNotification "lease.delete" ∉
      (delete_lease ⟨1, [⟨1, "physical:host", 10, "ACTIVE"⟩]⟩ "DONE" "UNDONE" 9
        (fun _ => .caughtError)).1 ∧
    ManagerEffect.leaseDestroy 1 ∉
      (delete_lease ⟨1, [⟨1, "physical:host", 10, "ACTIVE"⟩]⟩ "DONE" "UNDONE" 9
        (fun _ => .caughtError)).1 := by
  decide

/-- The amended claim about `delete_lease` teardown: if any non-deleted
reservation fails in `on_end` (with an error kind the loop catches),
`delete_lease` raises `EventError`, the lease row is not destroyed and the
`lease.delete` notification is NOT emitted; otherwise, when the lease had
started but not ended the end event is set to DONE, the lease row is
destroyed and `lease.delete` is emitted — the notification is sent exactly
in the successful case. -/
def DeleteLeaseSpec (lease : LeaseRec) (start_status end_status : String)
    (end_event_id : Nat) (on_end : Reservation → OnEndResult) : Prop :=
  ((∃ r ∈ lease.reservations, ¬ r.status = "DELETED" ∧
      on_end r = .caughtError) →
    (delete_lease lease start_status end_status end_event_id on_end).2 =
        some .eventError ∧
      ManagerEffect.leaseDestroy lease.id ∉
        (delete_lease lease start_status end_status end_event_id on_end).1 ∧
      ManagerEffect.sendNotification "lease.delete" ∉
        (delete_lease lease start_status end_status end_event_id on_end).1) ∧
  ((∀ r ∈ lease.reservations, ¬ r.status = "DELETED" → on_end r = .ok) →
    (delete_lease lease start_status end_status end_event_id on_end).2 =
        none ∧
      ManagerEffect.leaseDestroy lease.id ∈
        (delete_lease lease start_status end_status end_event_id on_end).1 ∧
      ManagerEffect.sendNotification "lease.delete" ∈
        (delete_lease lease start_status end_status end_event_id on_end).1 ∧
      (¬ start_status = "UNDONE" → end_status = "UNDONE" →
        ManagerEffect.eventUpdate end_event_id "DONE" ∈
          (delete_lease lease start_status end_status end_event_id
            on_end).1))

/-- C6 (amended): for every `delete_lease` call that reaches teardown and
whose plugin failures are of the kinds the loop catches: a failed `on_end`
leads to `EventError` with the lease row intact and no `lease.delete`
notification; a clean teardown marks the end event DONE (when the lease had
started but not ended), destroys the lease row and emits `lease.delete`. -/
theorem c6_delete_lease_amended (lease : LeaseRec)
    (start_status end_status : String) (end_event_id : Nat)
    (on_end : Reservation → OnEndResult)
    (hq : ∀ r ∈ lease.reservations, on_end r ≠ .uncaughtError) :
    DeleteLeaseSpec lease start_status end_status end_event_id on_end := by
  have hq2 : ∀ r ∈ reservations_execution_ordered lease,
      on_end r ≠ .uncaughtError :=
    fun r hr => hq r ((mem_reservations_execution_ordered lease r).mp hr)
  have hres := delete_reservations_eq on_end _ hq2
  unfold DeleteLeaseSpec
  constructor
  · rintro ⟨r, hr, hst, hoe⟩
    have hany : (reservations_execution_ordered lease).any
        (fun r => !(r.status == "DELETED") &&
          (on_end r == OnEndResult.caughtError)) = true := by
      refine List.any_eq_true.mpr
        ⟨r, (mem_reservations_execution_ordered lease r).mpr hr, ?_⟩
      simp [hst, hoe]
    refine ⟨?_, ?_, ?_⟩
    · simp only [delete_lease, hres, hany]
      rfl
    · simp only [delete_lease, hres, hany]
      simp only [if_true, List.mem_append, List.mem_flatMap]
      rintro ((h | h) | ⟨r2, hr2, h⟩)
      · split at h <;> simp at h
      · split at h <;> simp at h
      · split at h <;> simp at h
    · simp only [delete_lease, hres, hany]
      simp only [if_true, List.mem_append, List.mem_flatMap]
      rintro ((h | h) | ⟨r2, hr2, h⟩)
      · split at h <;> simp at h
      · split at h <;> simp at h
      · split at h <;> simp at h
  · intro hok
    have hany : (reservations_execution_ordered lease).any
        (fun r => !(r.status == "DELETED") &&
          (on_end r == OnEndResult.caughtError)) = false := by
      rw [List.any_eq_false]
      intro r hr
      by_cases hdel : r.status = "DELETED"
      · simp [hdel]
      · have := hok r ((mem_reservations_execution_ordered lease r).mp hr)
          hdel
        simp [hdel, this]
    refine ⟨?_, ?_, ?_, ?_⟩
    · simp only [delete_lease, hres, hany]
      rfl
    · simp only [delete_lease, hres, hany]
      simp [List.mem_append]
    · simp only [delete_lease, hres, hany]
      simp [List.mem_append]
    · intro hst hend
      have h1 : (start_status == "UNDONE") = false := by simp [hst]
      have h2 : (end_status == "UNDONE") = true := by simp [hend]
      simp only [delete_lease, hres, hany]
      simp [h1, h2, List.mem_append]

theorem c6_delete_lease_amended_witness :
    DeleteLeaseSpec ⟨1, [⟨1, "physical:host", 10, "ACTIVE"⟩]⟩ "DONE" "UNDONE"
      9 (fun _ => .ok) :=
  c6_delete_lease_amended _ _ _ _ _ (by decide)

/-- A date string as accepted by the manager: the literal `now`, a string
that `strptime` parses with format `%Y-%m-%d %H:%M` (represented by the
parsed timestamp, which has minute granularity), or a malformed string. -/
inductive DateStr
  | nowStr
  | dateStr (t : Int)
  | badStr
deriving DecidableEq, Repr

/-- The error kinds raised on the `create_lease` path. -/
inductive BlazarError
  | missingTrustId
  | missingParameter (params : List String)
  | invalidDate
  | invalidInput
  | notAuthorized
  | leaseNameAlreadyExists (name : String)
deriving DecidableEq, Repr

/-- Shallow embedding of `ManagerService._date_from_string`
(`blazar/manager/service.py`): parse with `strptime` or raise
`InvalidDate`.  The literal string `now` does not match the date format, so
it parses only where `_parse_lease_dates` special-cases it first. -/
def date_from_string : DateStr → Except BlazarError Int
  | .dateStr t => .ok t
  | _ => .error .invalidDate

/-- Shallow embedding of `ManagerService._parse_lease_dates`
(`blazar/manager/service.py`): truncate `utcnow` to the minute (the source
rebuilds the datetime from year down to minute, dropping seconds), resolve
the literal `now`, and parse both dates.  Returns
`(start_date, end_date, now)`. -/
def parse_lease_dates (start_s end_s : DateStr) (utcnow : Int) :
    Except BlazarError (Int × Int × Int) :=
  let now := utcnow - utcnow % 60
  match (match start_s with | .nowStr => Except.ok now
                            | s => date_from_string s) with
  | .error e => .error e
  | .ok start_date =>
      match (match end_s with | .nowStr => Except.ok now
                              | s => date_from_string s) with
      | .error e => .error e
      | .ok end_date => .ok (start_date, end_date, now)

/-- The incoming reservation values of `create_lease`; only `resource_type`
is validated there. -/
structure ReservationValues where
  resource_type : Option String
deriving DecidableEq, Repr

/-- An event row as created by `create_lease`. -/
structure CreatedEvent where
  event_type : String
  time : Int
  status : String
deriving DecidableEq, Repr

/-- The incoming `lease_values` of `create_lease`.  Absent dictionary keys
are `none`; `events` defaults to the empty list as in the source
(`lease_values.pop("events", [])`), and an absent `reservations` key equals
an empty list for the same reason. -/
structure LeaseValues where
  name : Option String
  start_date : Option DateStr
  end_date : Option DateStr
  before_end_date : Option DateStr
  trust_id : Option String
  reservations : List ReservationValues
  events : List CreatedEvent
deriving DecidableEq, Repr

/-- The lease as persisted by a successful `create_lease`. -/
structure CreatedLease where
  name : String
  start_date : Int
  end_date : Int
  events : List CreatedEvent
  status : String
deriving DecidableEq, Repr

/-- The required lease parameters that are missing, in the order
`name, start_date, end_date` (`validate_params` computes an unordered set
difference; this model fixes one order). -/
def missing_lease_params (v : LeaseValues) : List String :=
  (if v.name.isNone then ["name"] else []) ++
  (if v.start_date.isNone then ["start_date"] else []) ++
  (if v.end_date.isNone then ["end_date"] else [])

/-- Shallow embedding of `ManagerService._check_date_within_lease_limits`
(`blazar/manager/service.py`): require
`start_date < date < end_date`, else `NotAuthorized`. -/
def check_date_within_lease_limits (date start_date end_date : Int) :
    Except BlazarError Unit :=
  if start_date < date ∧ date < end_date then .ok () else .error .notAuthorized

/-- Shallow embedding of `ManagerService._update_before_end_event_date`
(`blazar/manager/service.py`): the event time is `before_end_date`, clamped
up to `start_date` when it is smaller. -/
def update_before_end_event_date (before_end_date start_date : Int) : Int :=
  if before_end_date < start_date then start_date else before_end_date

/-- Shallow embedding of `ManagerService.create_lease`
(`blazar/manager/service.py`).  In order: pop `trust_id`
(`MissingTrustId`); validate `name`, `start_date`, `end_date`
(`MissingParameter`); validate `resource_type` on every reservation; parse
the dates; reject `start_date < now` and `end_date <= start_date`
(`InvalidInput`); run enforcement (modelled by the `enforcement_ok` flag;
allocation itself is plugin work outside this repository and is treated as
successful); append the start and end events; compute the before-end event
per the caller-supplied date (validated to lie inside the lease) or the
`minutes_before_end_lease` option; then create the lease row, which fails
with `LeaseNameAlreadyExists` when the name is a duplicate in the project
(`name_exists`).  On success the lease is returned with status PENDING and
its events. -/
def create_lease (v : LeaseValues) (utcnow : Int)
    (minutes_before_end_lease : Nat) (enforcement_ok : Bool)
    (name_exists : Bool) : Except BlazarError CreatedLease :=
  match v.trust_id with
  | none => .error .missingTrustId
  | some _ =>
    match v.name, v.start_date, v.end_date with
    | some nm, some ss, some es =>
      if v.reservations.any (fun r => r.resource_type.isNone) then
        .error (.missingParameter ["resource_type"])
      else
        match parse_lease_dates ss es utcnow with
        | .error e => .error e
        | .ok (start_date, end_date, now) =>
          if start_date < now then .error .invalidInput
          else if end_date ≤ start_date then .error .invalidInput
          else if !enforcement_ok then .error .notAuthorized
          else
            let baseEvents := v.events ++
              [⟨"start_lease", start_date, "UNDONE"⟩,
               ⟨"end_lease", end_date, "UNDONE"⟩]
            let finish := fun (evs : List CreatedEvent) =>
              if name_exists then
                Except.error (BlazarError.leaseNameAlreadyExists nm)
              else .ok (⟨nm, start_date, end_date, evs, "PENDING"⟩ :
                CreatedLease)
            match v.before_end_date with
            | some bes =>
                match date_from_string bes with
                | .error e => .error e
                | .ok bed =>
                  match check_date_within_lease_limits bed start_date
                      end_date with
                  | .error e => .error e
                  | .ok _ =>
                      finish (baseEvents ++
                        [⟨"before_end_lease",
                          update_before_end_event_date bed start_date,
                          "UNDONE"⟩])
            | none =>
                if minutes_before_end_lease > 0 then
                  finish (baseEvents ++
                    [⟨"before_end_lease",
                      update_before_end_event_date
                        (end_date - (minutes_before_end_lease : Int) * 60)
                        start_date,
                      "UNDONE"⟩])
                else finish baseEvents
    | _, _, _ => .error (.missingParameter (missing_lease_params v))

example :
    create_lease ⟨some "lease1", some (.dateStr 600), some (.dateStr 7800),
      none, some "trust", [⟨some "physical:host"⟩], []⟩ 30 60 true false =
      .ok ⟨"lease1", 600, 7800,
        [⟨"start_lease", 600, "UNDONE"⟩, ⟨"end_lease", 7800, "UNDONE"⟩,
         ⟨"before_end_lease", 4200, "UNDONE"⟩], "PENDING"⟩ := by
  rfl

example :
    create_lease ⟨some "lease1", some (.dateStr 600), some (.dateStr 7800),
      none, some "trust", [], []⟩ 30 0 true false =
      .ok ⟨"lease1", 600, 7800,
        [⟨"start_lease", 600, "UNDONE"⟩, ⟨"end_lease", 7800, "UNDONE"⟩],
        "PENDING"⟩ := by
  rfl

/-- C4 counterexample: a request with `trust_id`, `name`, valid dates and NO
reservations (an absent `reservations` key defaults to the empty list) is
accepted and returns a lease — no missing-parameter error is raised,
contradicting the claim that `reservations[]` is a required field. -/
theorem c4_create_lease_counterexample :
    create_lease ⟨some "lease1", some (.dateStr 600), some (.dateStr 7800),
        none, some "trust", [], []⟩ 30 0 true false =
      .ok ⟨"lease1", 600, 7800,
        [⟨"start_lease", 600, "UNDONE"⟩, ⟨"end_lease", 7800, "UNDONE"⟩],
        "PENDING"⟩ ∧
    ∀ e : BlazarError,
      create_lease ⟨some "lease1", some (.dateStr 600), some (.dateStr 7800),
        none, some "trust", [], []⟩ 30 0 true false ≠ .error e := by
  constructor
  · rfl
  · intro e h
    rw [show create_lease ⟨some "lease1", some (.dateStr 600),
        some (.dateStr 7800), none, some "trust", [], []⟩ 30 0 true false =
      Except.ok ⟨"lease1", 600, 7800,
        [⟨"start_lease", 600, "UNDONE"⟩, ⟨"end_lease", 7800, "UNDONE"⟩],
        "PENDING"⟩ from rfl] at h
    exact Except.noConfusion h

/-- The amended validation claim for `create_lease`: `MissingTrustId` when
`trust_id` is absent; `MissingParameter` when `name`, `start_date` or
`end_date` is absent, or when a supplied reservation lacks
`resource_type`; `InvalidInput` when `start_date` is before the current
time truncated to the minute, or when `end_date` is not strictly after
`start_date`; `LeaseNameAlreadyExists` when the name duplicates one in the
project; and an absent (empty) reservations list is accepted.  In every
error case no lease is returned. -/
def CreateLeaseValidation (v : LeaseValues) (utcnow : Int) (m : Nat)
    (eok nex : Bool) : Prop :=
  (v.trust_id = none →
    create_lease v utcnow m eok nex = .error .missingTrustId) ∧
  (v.trust_id ≠ none → missing_lease_params v ≠ [] →
    create_lease v utcnow m eok nex =
      .error (.missingParameter (missing_lease_params v))) ∧
  (v.trust_id ≠ none → missing_lease_params v = [] →
    (∃ r ∈ v.reservations, r.resource_type = none) →
    create_lease v utcnow m eok nex =
      .error (.missingParameter ["resource_type"])) ∧
  (∀ ss es sd ed now, v.trust_id ≠ none → missing_lease_params v = [] →
    (∀ r ∈ v.reservations, r.resource_type ≠ none) →
    v.start_date = some ss → v.end_date = some es →
    parse_lease_dates ss es utcnow = .ok (sd, ed, now) →
    sd < now →
    create_lease v utcnow m eok nex = .error .invalidInput) ∧
  (∀ ss es sd ed now, v.trust_id ≠ none → missing_lease_params v = [] →
    (∀ r ∈ v.reservations, r.resource_type ≠ none) →
    v.start_date = some ss → v.end_date = some es →
    parse_lease_dates ss es utcnow = .ok (sd, ed, now) →
    ¬ sd < now → ed ≤ sd →
    create_lease v utcnow m eok nex = .error .invalidInput) ∧
  (∀ nm ss es sd ed now, v.trust_id ≠ none → v.name = some nm →
    (∀ r ∈ v.reservations, r.resource_type ≠ none) →
    v.start_date = some ss → v.end_date = some es →
    v.before_end_date = none →
    parse_lease_dates ss es utcnow = .ok (sd, ed, now) →
    ¬ sd < now → ¬ ed ≤ sd → eok = true → nex = true →
    create_lease v utcnow m eok nex =
      .error (.leaseNameAlreadyExists nm)) ∧
  (∀ nm ss es sd ed now, v.trust_id ≠ none → v.name = some nm →
    v.reservations = [] →
    v.start_date = some ss → v.end_date = some es →
    v.before_end_date = none →
    parse_lease_dates ss es utcnow = .ok (sd, ed, now) →
    ¬ sd < now → ¬ ed ≤ sd → eok = true → nex = false →
    ∃ lease : CreatedLease,
      create_lease v utcnow m eok nex = .ok lease)

theorem missing_lease_params_eq_nil (v : LeaseValues)
    (h : missing_lease_params v = []) :
    (∃ nm, v.name = some nm) ∧ (∃ ss, v.start_date = some ss) ∧
      (∃ es, v.end_date = some es) := by
  unfold missing_lease_params at h
  rcases hn : v.name with _ | nm
  · simp [hn] at h
  · rcases hs : v.start_date with _ | ss
    · simp [hs] at h
    · rcases he : v.end_date with _ | es
      · simp [he] at h
      · exact ⟨⟨nm, rfl⟩, ⟨ss, rfl⟩, ⟨es, rfl⟩⟩

/-- C4 (amended): `create_lease` fails without persisting a lease on every
invalid input — `MissingTrustId` for an absent `trust_id`, a
missing-parameter error for an absent `name`, `start_date` or `end_date`
and for a supplied reservation without `resource_type`, `InvalidInput` for
`start_date` before the current minute or `end_date` not strictly after
`start_date`, `LeaseNameAlreadyExists` for a duplicate name — while an
absent (empty) `reservations` list is accepted rather than rejected. -/
theorem c4_create_lease_validation (v : LeaseValues) (utcnow : Int) (m : Nat)
    (eok nex : Bool) : CreateLeaseValidation v utcnow m eok nex := by
  unfold CreateLeaseValidation
  refine ⟨?_, ?_, ?_, ?_, ?_, ?_, ?_⟩
  · intro h
    simp [create_lease, h]
  · intro ht hm
    rcases hvt : v.trust_id with _ | t
    · exact absurd hvt ht
    rcases hnm : v.name with _ | nm <;>
      rcases hss : v.start_date with _ | ss <;>
      rcases hes : v.end_date with _ | es <;>
      simp only [create_lease, hvt, hnm, hss, hes]
    exact absurd (by simp [missing_lease_params, hnm, hss, hes]) hm
  · intro ht hmz hex
    rcases hvt : v.trust_id with _ | t
    · exact absurd hvt ht
    obtain ⟨⟨nm, hnm⟩, ⟨ss, hss⟩, ⟨es, hes⟩⟩ := missing_lease_params_eq_nil v hmz
    obtain ⟨r, hr, hrt⟩ := hex
    have hany : v.reservations.any (fun r => r.resource_type.isNone) = true :=
      List.any_eq_true.mpr ⟨r, hr, by simp [hrt]⟩
    simp [create_lease, hvt, hnm, hss, hes, hany]
  · intro ss es sd ed now ht hmz hres hss hes hparse hlt
    rcases hvt : v.trust_id with _ | t
    · exact absurd hvt ht
    obtain ⟨⟨nm, hnm⟩, _, _⟩ := missing_lease_params_eq_nil v hmz
    have hany : v.reservations.any (fun r => r.resource_type.isNone) = false := by
      rw [List.any_eq_false]
      intro r hr
      simp [Option.isNone_iff_eq_none, hres r hr]
    simp [create_lease, hvt, hnm, hss, hes, hany, hparse, hlt]
  · intro ss es sd ed now ht hmz hres hss hes hparse hlt hle
    rcases hvt : v.trust_id with _ | t
    · exact absurd hvt ht
    obtain ⟨⟨nm, hnm⟩, _, _⟩ := missing_lease_params_eq_nil v hmz
    have hany : v.reservations.any (fun r => r.resource_type.isNone) = false := by
      rw [List.any_eq_false]
      intro r hr
      simp [Option.isNone_iff_eq_none, hres r hr]
    simp [create_lease, hvt, hnm, hss, hes, hany, hparse, hlt, hle]
  · intro nm ss es sd ed now ht hnm hres hss hes hbed hparse hlt hle heok hnex
    rcases hvt : v.trust_id with _ | t
    · exact absurd hvt ht
    have hany : v.reservations.any (fun r => r.resource_type.isNone) = false := by
      rw [List.any_eq_false]
      intro r hr
      simp [Option.isNone_iff_eq_none, hres r hr]
    by_cases hm0 : m > 0 <;>
      simp [create_lease, hvt, hnm, hss, hes, hany, hparse, hlt, hle, hbed,
        heok, hnex, hm0]
  · intro nm ss es sd ed now ht hnm hres hss hes hbed hparse hlt hle heok hnex
    rcases hvt : v.trust_id with _ | t
    · exact absurd hvt ht
    have hany : v.reservations.any (fun r => r.resource_type.isNone) = false := by
      simp [hres]
    by_cases hm0 : m > 0 <;>
      simp [create_lease, hvt, hnm, hss, hes, hany, hparse, hlt, hle, hbed,
        heok, hnex, hm0]

theorem c4_create_lease_validation_witness :
    CreateLeaseValidation ⟨some "lease1", some (.dateStr 600),
      some (.dateStr 7800), none, some "trust", [], []⟩ 30 60 true false :=
  c4_create_lease_validation _ _ _ _ _

/-- The claim about the before-end event time in `create_lease`, for inputs
that pass the earlier validation steps: a caller-supplied `before_end_date`
must satisfy `start_date < t < end_date` or the call fails; otherwise, with
`minutes_before_end_lease > 0`, the event time is `end_date` minus that
many minutes, clamped up to `start_date` when the computed time is earlier
than `start_date`; with the option at 0 and no caller-supplied date, no
before-end event is created. -/
def BeforeEndEventSpec (v : LeaseValues) (utcnow : Int) (m : Nat) : Prop :=
  ∀ nm ss es sd ed now, v.trust_id ≠ none → v.name = some nm →
    (∀ r ∈ v.reservations, r.resource_type ≠ none) →
    v.start_date = some ss → v.end_date = some es →
    parse_lease_dates ss es utcnow = .ok (sd, ed, now) →
    ¬ sd < now → ¬ ed ≤ sd →
    ((∀ bt, v.before_end_date = some (.dateStr bt) →
        (¬ (sd < bt ∧ bt < ed) →
          create_lease v utcnow m true false = .error .notAuthorized) ∧
        (sd < bt → bt < ed →
          create_lease v utcnow m true false =
            .ok ⟨nm, sd, ed,
              v.events ++ [⟨"start_lease", sd, "UNDONE"⟩,
                ⟨"end_lease", ed, "UNDONE"⟩,
                ⟨"before_end_lease", bt, "UNDONE"⟩], "PENDING"⟩)) ∧
     (v.before_end_date = none → 0 < m →
        create_lease v utcnow m true false =
          .ok ⟨nm, sd, ed,
            v.events ++ [⟨"start_lease", sd, "UNDONE"⟩,
              ⟨"end_lease", ed, "UNDONE"⟩,
              ⟨"before_end_lease",
                if ed - (m : Int) * 60 < sd then sd
                else ed - (m : Int) * 60, "UNDONE"⟩], "PENDING"⟩) ∧
     (v.before_end_date = none → m = 0 →
        create_lease v utcnow m true false =
          .ok ⟨nm, sd, ed,
            v.events ++ [⟨"start_lease", sd, "UNDONE"⟩,
              ⟨"end_lease", ed, "UNDONE"⟩], "PENDING"⟩))

/-- C5: in `create_lease` the before-end event time is the caller-supplied
date when given (validated to lie strictly between the lease dates, failing
otherwise), else `end_date - minutes_before_end_lease` when the option is
positive, else no before-end event; a computed time earlier than
`start_date` is clamped to `start_date`, so the stored time can equal
`start_date` at the boundary. -/
theorem c5_before_end_event (v : LeaseValues) (utcnow : Int) (m : Nat) :
    BeforeEndEventSpec v utcnow m := by
  unfold BeforeEndEventSpec
  intro nm ss es sd ed now ht hnm hres hss hes hparse hlt hle
  rcases hvt : v.trust_id with _ | t
  · exact absurd hvt ht
  have hany : v.reservations.any (fun r => r.resource_type.isNone) = false := by
    rw [List.any_eq_false]
    intro r hr
    simp [Option.isNone_iff_eq_none, hres r hr]
  refine ⟨?_, ?_, ?_⟩
  · intro bt hbed
    constructor
    · intro hout
      have hchk : check_date_within_lease_limits bt sd ed =
          .error .notAuthorized := by
        simp [check_date_within_lease_limits, hout]
      simp [create_lease, hvt, hnm, hss, hes, hany, hparse, hlt, hle, hbed,
        date_from_string, hchk]
    · intro h1 h2
      have hchk : check_date_within_lease_limits bt sd ed = .ok () := by
        simp [check_date_within_lease_limits, h1, h2]
      have hupd : update_before_end_event_date bt sd = bt := by
        have : ¬ bt < sd := by omega
        simp [update_before_end_event_date, this]
      simp [create_lease, hvt, hnm, hss, hes, hany, hparse, hlt, hle, hbed,
        date_from_string, hchk, hupd]
  · intro hbed hm0
    have hm0f : m > 0 := hm0
    simp [create_lease, hvt, hnm, hss, hes, hany, hparse, hlt, hle, hbed,
      hm0f, update_before_end_event_date]
  · intro hbed hm0
    subst hm0
    simp [create_lease, hvt, hnm, hss, hes, hany, hparse, hlt, hle, hbed]

theorem c5_before_end_event_witness :
    BeforeEndEventSpec ⟨some "lease1", some (.dateStr 600),
      some (.dateStr 7800), none, some "trust", [], []⟩ 30 60 :=
  c5_before_end_event _ _ _

/-- Lease row fields relevant to the `update_lease` fast paths. -/
structure LeaseRow where
  name : String
  status : String
  start_date : Int
  end_date : Int
deriving DecidableEq, Repr

/-- Stable lease statuses (spec section 3): PENDING, ACTIVE, TERMINATED,
ERROR. -/
def is_stable_lease_status (s : String) : Bool :=
  s == "PENDING" || s == "ACTIVE" || s == "TERMINATED" || s == "ERROR"

/-- Modelled from the spec: the `lease_status` decorator of the status
machine (spec section 4.6) — the `blazar/status` module that implements it
is not under src/.  On entry the lease status, which must be stable, is
atomically set to the transitional status; the operation then runs against
the updated store; on success the status is set back to the pre-call
stable state (spec section 4.1: update "transitions to UPDATING and back
to the pre-existing stable state on success").  The wrapper returns the
return value of the operation.  `none` stands for a raised exception
(`InvalidStatus` on a non-stable lease) or for the general path that this
model does not cover. -/
def lease_status_guard (transition : String)
    (body : LeaseRow → Option (LeaseRow × LeaseRow)) (db : LeaseRow) :
    Option (LeaseRow × LeaseRow) :=
  if is_stable_lease_status db.status then
    match body { db with status := transition } with
    | none => none
    | some (db2, ret) => some ({ db2 with status := db.status }, ret)
  else none

/-- The two fast paths of `ManagerService.update_lease`
(`blazar/manager/service.py`), with `values` as the key-value pairs of the
request dictionary: an empty dictionary immediately returns
`lease_get(lease_id)`; a dictionary holding exactly a `name` key runs
`lease_update(lease_id, values)` and returns `lease_get(lease_id)`.  Any
other dictionary takes the general path through dates, reservations,
plugins and enforcement — collaborators outside this claim — and is left
unmodelled (`none`).  The store is a single lease row; the result pairs
the stored row after the body with the row the body returns. -/
def update_lease_body (values : List (String × String)) (db : LeaseRow) :
    Option (LeaseRow × LeaseRow) :=
  match values with
  | [] => some (db, db)
  | [(k, val)] =>
      if k = "name" then some ({ db with name := val }, { db with name := val })
      else none
  | _ => none

/-- `update_lease` = the status guard applied to the body, with the
UPDATING transitional status, as declared by the decorator in the source. -/
def update_lease (db : LeaseRow) (values : List (String × String)) :
    Option (LeaseRow × LeaseRow) :=
  lease_status_guard "UPDATING" (update_lease_body values) db

/-- C9 counterexample: updating a PENDING lease with an empty values
dictionary leaves the stored lease unchanged, but the returned row is read
while the status guard holds the lease in UPDATING, so its status field is
UPDATING, not the original PENDING — the returned lease is not unchanged
"including its status". -/
theorem c9_update_lease_counterexample :
    update_lease ⟨"lease1", "PENDING", 0, 3600⟩ [] =
      some (⟨"lease1", "PENDING", 0, 3600⟩,
        ⟨"lease1", "UPDATING", 0, 3600⟩) ∧
    (⟨"lease1", "UPDATING", 0, 3600⟩ : LeaseRow) ≠
      ⟨"lease1", "PENDING", 0, 3600⟩ := by
  constructor
  · rfl
  · decide

/-- The amended idempotence claim for `update_lease`: with the lease in a
stable status, an empty update performs no net modification — the stored
lease, status included, is unchanged — and returns the stored lease except
that the returned snapshot carries the transitional UPDATING status; a
name-only update performed twice yields exactly the same stored lease and
the same returned lease as performing it once. -/
def UpdateLeaseIdempotence (db : LeaseRow) (x : String) : Prop :=
  (update_lease db [] = some (db, { db with status := "UPDATING" })) ∧
  (update_lease db [("name", x)] =
    some ({ db with name := x },
      { db with name := x, status := "UPDATING" })) ∧
  (update_lease { db with name := x } [("name", x)] =
    some ({ db with name := x },
      { db with name := x, status := "UPDATING" }))

/-- C9 (amended): `update_lease` with an empty values dictionary is a
no-op on the stored lease and returns it with the transitional UPDATING
status in the snapshot; a name-only update applied twice gives the same
result as applying it once. -/
theorem c9_update_lease_idempotence (db : LeaseRow) (x : String)
    (hstable : is_stable_lease_status db.status = true) :
    UpdateLeaseIdempotence db x := by
  unfold UpdateLeaseIdempotence update_lease lease_status_guard
    update_lease_body
  simp [hstable]

theorem c9_update_lease_idempotence_witness :
    UpdateLeaseIdempotence ⟨"lease1", "PENDING", 0, 3600⟩ "lease2" :=
  c9_update_lease_idempotence _ _ (by decide)
